import Mathlib

set_option maxRecDepth 8000

/-! Shallow embedding of the DyNetworkX temporal-graph core:
`dynetworkx/classes/intervalgraph.py` (IntervalGraph) and
`dynetworkx/classes/snapshotgraph.py` (SnapshotGraph).

Times are modelled as rationals, attribute values as rationals, attribute
dictionaries as insertion-ordered association lists, and the Python object
heap (needed for the deliberate aliasing of edge-attribute dictionaries)
as an explicit store of numbered cells. -/

/-- Python exceptions that the modelled code can raise.  `invalidInterval`
and `invalidArgument` are the `NetworkXError`s raised respectively for a
non-positive edge/window duration and for a bad snapshot count. -/
inductive PyErr : Type
  | invalidInterval
  | invalidArgument
  | typeError
  | keyError
  | indexError
  | valueError
deriving DecidableEq, Repr

/-- Attribute dictionary: insertion-ordered association list from string
keys to rational values, modelling a Python dict as used for edge/node
attributes. -/
abbrev AttrDict : Type := List (String × ℚ)

/-- First binding of key `k` in an association list (Python `d[k]` read,
`None` when absent). -/
def alookup {α β : Type} [DecidableEq α] : List (α × β) → α → Option β
  | [], _ => none
  | (k0, v0) :: rest, k => if k0 = k then some v0 else alookup rest k

/-- Python `d[k] = v`: replace the binding in place when the key is
present, otherwise append it (preserving dict insertion order). -/
def aset {α β : Type} [DecidableEq α] : List (α × β) → α → β → List (α × β)
  | [], k, v => [(k, v)]
  | (k0, v0) :: rest, k, v =>
      if k0 = k then (k0, v) :: rest else (k0, v0) :: aset rest k v

/-- Python `d.update(new)`: merge `new` into `d` key by key, the new value
winning on a key collision. -/
def dictUpdate (d new : AttrDict) : AttrDict :=
  new.foldl (fun acc p => aset acc p.1 p.2) d

/-- One stored `intervaltree.Interval(begin, end, (u, v))` as created by
`IntervalGraph.add_edge`: interval bounds plus the ordered endpoint pair
carried in the `data` slot.  (`end` is a Lean keyword, hence `endp`.) -/
structure IvE (V : Type) where
  begin : ℚ
  endp : ℚ
  u : V
  v : V
deriving DecidableEq, Repr

/-- State of one `IntervalGraph` object.
`tree` is the `IntervalTree` contents, `node` is `self._node`,
`adjN` is the node-keyed part of `self._adj` (node -> interval -> heap
reference), `adjI` is the interval-keyed part of `self._adj` (the entries
written by `self._adj[iv_edge] = attr`), and `heap`/`next` model the
Python heap of attribute-dict objects so that aliasing is explicit. -/
structure IntervalGraph (V : Type) where
  tree : List (IvE V)
  node : List (V × AttrDict)
  adjN : List (V × List (IvE V × Nat))
  adjI : List (IvE V × Nat)
  heap : List (Nat × AttrDict)
  next : Nat
deriving DecidableEq, Repr

/-- A freshly constructed `IntervalGraph()`. -/
def emptyIG (V : Type) : IntervalGraph V :=
  { tree := [], node := [], adjN := [], adjI := [], heap := [], next := 0 }

/-- The node auto-creation snippet inside `add_edge`
(`self._adj[u] = {}; self._node[u] = {}` when `u not in self._node`). -/
def nodeAutoAdd {V : Type} [DecidableEq V] (G : IntervalGraph V) (n : V) :
    IntervalGraph V :=
  if alookup G.node n = none then
    { G with node := aset G.node n [], adjN := aset G.adjN n [] }
  else G

/-- `IntervalGraph.add_edge(u, v, begin, end, **attr)`.  Returns the raised
exception (if any) together with the post-call state, since the Python
method mutates `self` in place even when it ends by raising.

Faithful to the source: the duplicate check uses the ordered pair `(u, v)`
inside the interval's data; on a duplicate it merges `attr` into the
existing shared attribute object; otherwise it auto-creates missing nodes,
then `self.tree.add` rejects `end <= begin` (raised as `NetworkXError`,
after the node mutation), and finally
`self._adj[u][iv_edge] = self._adj[iv_edge] = attr` installs one shared
attribute object under `u`'s adjacency and under the top-level
interval key — not under `v`'s adjacency. -/
def IntervalGraph.add_edge {V : Type} [DecidableEq V] (G : IntervalGraph V)
    (u v : V) (bg en : ℚ) (attr : AttrDict) :
    Except PyErr Unit × IntervalGraph V :=
  let iv : IvE V := ⟨bg, en, u, v⟩
  if iv ∈ G.tree then
    match alookup G.adjN u with
    | none => (.error .keyError, G)
    | some inner =>
      match alookup inner iv with
      | none => (.error .keyError, G)
      | some r =>
        match alookup G.heap r with
        | none => (.error .keyError, G)
        | some d => (.ok (), { G with heap := aset G.heap r (dictUpdate d attr) })
  else
    let G2 := nodeAutoAdd (nodeAutoAdd G u) v
    if en ≤ bg then (.error .invalidInterval, G2)
    else
      match alookup G2.adjN u with
      | none => (.error .keyError, G2)
      | some inner =>
        let r := G2.next
        (.ok (), { G2 with
                    tree := G2.tree ++ [iv],
                    adjN := aset G2.adjN u (aset inner iv r),
                    adjI := aset G2.adjI iv r,
                    heap := aset G2.heap r attr,
                    next := r + 1 })

/-- Auto-creating a node inside `add_edge` never touches the interval tree. -/
theorem nodeAutoAdd_tree {V : Type} [DecidableEq V] (G : IntervalGraph V) (n : V) :
    (nodeAutoAdd G n).tree = G.tree := by
  unfold nodeAutoAdd; split <;> rfl

/-- Auto-creating a node inside `add_edge` never touches the interval-keyed
adjacency entries. -/
theorem nodeAutoAdd_adjI {V : Type} [DecidableEq V] (G : IntervalGraph V) (n : V) :
    (nodeAutoAdd G n).adjI = G.adjI := by
  unfold nodeAutoAdd; split <;> rfl

/-- Auto-creating a node inside `add_edge` never touches the attribute heap. -/
theorem nodeAutoAdd_heap {V : Type} [DecidableEq V] (G : IntervalGraph V) (n : V) :
    (nodeAutoAdd G n).heap = G.heap := by
  unfold nodeAutoAdd; split <;> rfl

/-- Auto-creating an already-present node is a no-op. -/
theorem nodeAutoAdd_present {V : Type} [DecidableEq V] (G : IntervalGraph V) (n : V)
    (h : alookup G.node n ≠ none) : nodeAutoAdd G n = G := by
  unfold nodeAutoAdd; exact if_neg h

/-- What a rejected `add_edge` (`end <= begin`) actually does: it raises,
the tree, the interval-keyed adjacency and the heap are unchanged, but the
node table and node-keyed adjacency have already been mutated by the
auto-creation of missing endpoints; only when both endpoints already exist
is the store fully unchanged. -/
def addEdgeFailsClean {V : Type} [DecidableEq V] (G : IntervalGraph V)
    (u v : V) (bg en : ℚ) (attr : AttrDict) : Prop :=
  G.add_edge u v bg en attr = (.error .invalidInterval, nodeAutoAdd (nodeAutoAdd G u) v) ∧
  (G.add_edge u v bg en attr).2.tree = G.tree ∧
  (G.add_edge u v bg en attr).2.adjI = G.adjI ∧
  (G.add_edge u v bg en attr).2.heap = G.heap ∧
  (alookup G.node u ≠ none → alookup G.node v ≠ none →
    (G.add_edge u v bg en attr).2 = G)

/-- C1: the claim says that after a successful `add_edge(u, v, begin, end)`
the adjacency entries on `u`'s side and on `v`'s side both exist and
reference the same attribute object.  The code instead executes
`self._adj[u][iv_edge] = self._adj[iv_edge] = attr`: on the store produced
by `add_edge(1, 2, 0, 5, w=7)` the entry on `u = 1`'s side and the
top-level interval-keyed entry alias the same heap cell `0`, but `v = 2`'s
adjacency dict is empty — a read through `v`'s side finds nothing, even
though the code's own duplicate-branch comment asserts both sides point to
the same attribute object. -/
theorem C1_code_bug_eval :
    (alookup (((emptyIG ℕ).add_edge 1 2 0 5 [("w", 7)]).2).adjN 2 = some []) ∧
    (alookup (((emptyIG ℕ).add_edge 1 2 0 5 [("w", 7)]).2).adjN 1
      = some [(⟨0, 5, 1, 2⟩, 0)]) ∧
    (alookup (((emptyIG ℕ).add_edge 1 2 0 5 [("w", 7)]).2).adjI ⟨0, 5, 1, 2⟩
      = some 0) ∧
    (alookup (((emptyIG ℕ).add_edge 1 2 0 5 [("w", 7)]).2).heap 0
      = some [("w", 7)]) :=
  ⟨by decide, by decide, by decide, by decide⟩

/-- C2 counterexample: `add_edge(1, 2, 0, 0)` on a fresh store raises the
invalid-interval failure, yet the node table is not left unchanged — both
endpoints have been auto-created before the validation failure. -/
theorem C2_counterexample :
    (((emptyIG ℕ).add_edge 1 2 0 0 []).1 = Except.error PyErr.invalidInterval) ∧
    ((emptyIG ℕ).add_edge 1 2 0 0 []).2.node ≠ (emptyIG ℕ).node :=
  ⟨rfl, by decide⟩

/-- C2 (amended): on any store whose tree holds only valid intervals,
`add_edge` with `end <= begin` raises the invalid-interval failure and
leaves the tree, the interval-keyed adjacency and the attribute heap
unchanged, but the node table and node-keyed adjacency have already been
mutated by auto-creation of missing endpoints; the whole store is
unchanged only when both endpoints already existed. -/
theorem C2_amended_thm {V : Type} [DecidableEq V] (G : IntervalGraph V)
    (u v : V) (bg en : ℚ) (attr : AttrDict)
    (hle : en ≤ bg) (hvalid : ∀ iv ∈ G.tree, iv.begin < iv.endp) :
    addEdgeFailsClean G u v bg en attr := by
  have hniv : (⟨bg, en, u, v⟩ : IvE V) ∉ G.tree := by
    intro hmem
    exact absurd (hvalid _ hmem) (not_lt.2 hle)
  have hmain : G.add_edge u v bg en attr
      = (.error .invalidInterval, nodeAutoAdd (nodeAutoAdd G u) v) := by
    unfold IntervalGraph.add_edge
    simp only [if_neg hniv, if_pos hle]
  refine ⟨hmain, ?_, ?_, ?_, ?_⟩
  · rw [hmain]
    simp [nodeAutoAdd_tree]
  · rw [hmain]
    simp [nodeAutoAdd_adjI]
  · rw [hmain]
    simp [nodeAutoAdd_heap]
  · intro hu hv
    rw [hmain]
    have h1 : nodeAutoAdd G u = G := nodeAutoAdd_present G u hu
    rw [h1, nodeAutoAdd_present G v hv]

/-- C2 witness: the amended statement applied to `add_edge(1, 2, 0, 0)` on
a fresh store. -/
theorem C2_witness :
    (((0 : ℚ) ≤ 0) ∧ (∀ iv ∈ (emptyIG ℕ).tree, iv.begin < iv.endp)) ∧
    addEdgeFailsClean (emptyIG ℕ) 1 2 0 0 [] :=
  ⟨⟨le_refl 0, by simp [emptyIG]⟩,
    C2_amended_thm (emptyIG ℕ) 1 2 0 0 [] (le_refl 0) (by simp [emptyIG])⟩

/-- C3 counterexample: edge identity is *ordered* in `(u, v)`, not
unordered.  Re-adding the same interval with swapped endpoints
(`add_edge(1,2,0,5)` then `add_edge(2,1,0,5)`) inserts a second interval:
the index size grows from 1 to 2 instead of staying unchanged as the
claim requires. -/
theorem C3_counterexample :
    ((((emptyIG ℕ).add_edge 1 2 0 5 []).2.add_edge 2 1 0 5 []).2.tree.length = 2) ∧
    (((emptyIG ℕ).add_edge 1 2 0 5 []).2.tree.length = 1) :=
  ⟨by decide, by decide⟩

/-- Conclusion of the duplicate-add merge path: the call succeeds, the only
state change is the in-place key-by-key merge of `attr` into the shared
heap cell `r` (visible through every alias of that cell), and the interval
tree is unchanged. -/
def addEdgeDupMerge {V : Type} [DecidableEq V] (G : IntervalGraph V)
    (u v : V) (bg en : ℚ) (attr : AttrDict) (r : Nat) (d : AttrDict) : Prop :=
  G.add_edge u v bg en attr
    = (.ok (), { G with heap := aset G.heap r (dictUpdate d attr) }) ∧
  (G.add_edge u v bg en attr).2.tree = G.tree

/-- C3 (amended): for a second `add_edge` with the *same ordered* identity
`(u, v, begin, end)`, the new attributes are merged key-by-key into the
existing shared attribute object (heap cell `r`, aliased by `u`'s
adjacency entry and by the top-level interval-keyed entry), no new
interval is inserted, and the interval index is unchanged; with swapped
endpoint order a separate new interval is inserted instead. -/
theorem C3_amended_thm {V : Type} [DecidableEq V] (G : IntervalGraph V)
    (u v : V) (bg en : ℚ) (attr : AttrDict)
    (inner : List (IvE V × Nat)) (r : Nat) (d : AttrDict)
    (hmem : (⟨bg, en, u, v⟩ : IvE V) ∈ G.tree)
    (hadj : alookup G.adjN u = some inner)
    (hin : alookup inner ⟨bg, en, u, v⟩ = some r)
    (hheap : alookup G.heap r = some d) :
    addEdgeDupMerge G u v bg en attr r d := by
  have hmain : G.add_edge u v bg en attr
      = (.ok (), { G with heap := aset G.heap r (dictUpdate d attr) }) := by
    unfold IntervalGraph.add_edge
    simp only [if_pos hmem, hadj, hin, hheap]
  exact ⟨hmain, by rw [hmain]⟩

/-- C3 witness: the spec's idempotence scenario.  After
`add_edge(1,2,0,5,{a:1})`, re-adding `(1,2,0,5)` with `{a:2, b:3}` hits
the duplicate-merge path; exactly one interval remains and the shared
attribute object now reads `{a:2, b:3}`. -/
theorem C3_witness :
    ((⟨0, 5, 1, 2⟩ : IvE ℕ) ∈ (((emptyIG ℕ).add_edge 1 2 0 5 [("a", 1)]).2).tree ∧
      alookup (((emptyIG ℕ).add_edge 1 2 0 5 [("a", 1)]).2).adjN 1
        = some [(⟨0, 5, 1, 2⟩, 0)] ∧
      alookup [((⟨0, 5, 1, 2⟩ : IvE ℕ), 0)] (⟨0, 5, 1, 2⟩ : IvE ℕ) = some 0 ∧
      alookup (((emptyIG ℕ).add_edge 1 2 0 5 [("a", 1)]).2).heap 0 = some [("a", 1)]) ∧
    addEdgeDupMerge (((emptyIG ℕ).add_edge 1 2 0 5 [("a", 1)]).2) 1 2 0 5
      [("a", 2), ("b", 3)] 0 [("a", 1)] ∧
    ((((emptyIG ℕ).add_edge 1 2 0 5 [("a", 1)]).2.add_edge 1 2 0 5
        [("a", 2), ("b", 3)]).2.tree.length = 1) ∧
    (alookup (((emptyIG ℕ).add_edge 1 2 0 5 [("a", 1)]).2.add_edge 1 2 0 5
        [("a", 2), ("b", 3)]).2.heap 0 = some [("a", 2), ("b", 3)]) :=
  ⟨⟨by decide, by decide, by decide, by decide⟩,
    C3_amended_thm (((emptyIG ℕ).add_edge 1 2 0 5 [("a", 1)]).2) 1 2 0 5
      [("a", 2), ("b", 3)] [(⟨0, 5, 1, 2⟩, 0)] 0 [("a", 1)]
      (by decide) (by decide) (by decide) (by decide),
    by decide, by decide⟩

/-- A value passed to `n in G` or `G.has_node(n)`: either a hashable value
of the node type, or an unhashable object, on which Python's `in` raises
`TypeError`. -/
inductive PyProbe (V : Type) : Type
  | hashable (v : V)
  | unhashable
deriving DecidableEq, Repr

/-- Python `n in self._node`: dict-key membership, raising `TypeError`
when the probe is unhashable. -/
def nodeMem {V : Type} [DecidableEq V] (G : IntervalGraph V) :
    PyProbe V → Except PyErr Bool
  | .hashable v => .ok (decide (alookup G.node v ≠ none))
  | .unhashable => .error .typeError

/-- `IntervalGraph.__contains__`: `try: return n in self._node` with
`except TypeError: return False`. -/
def IntervalGraph.contains {V : Type} [DecidableEq V] (G : IntervalGraph V)
    (n : PyProbe V) : Bool :=
  match nodeMem G n with
  | .ok b => b
  | .error _ => false

/-- `IntervalGraph.has_node`: same body as `__contains__` in the source. -/
def IntervalGraph.has_node {V : Type} [DecidableEq V] (G : IntervalGraph V)
    (n : PyProbe V) : Bool :=
  match nodeMem G n with
  | .ok b => b
  | .error _ => false

/-- C10: node membership is total.  For every store and every probe,
`n in G` returns a boolean — dict membership for a hashable probe, and
`False` for an unhashable probe (the raised `TypeError` is caught, not
propagated) — and `has_node` agrees with `__contains__` everywhere. -/
theorem C10_membership_total {V : Type} [DecidableEq V]
    (G : IntervalGraph V) (n : PyProbe V) :
    (G.contains n = match n with
      | .hashable v => decide (alookup G.node v ≠ none)
      | .unhashable => false) ∧
    G.has_node n = G.contains n ∧
    nodeMem G (.unhashable) = .error .typeError ∧
    G.contains .unhashable = false := by
  refine ⟨?_, ?_, rfl, rfl⟩
  · cases n <;> rfl
  · cases n <;> rfl

/-- Half-open overlap test of the `self.tree[begin:end]` slice query: a
stored interval matches iff `iv.begin < end` and `iv.end > begin`
(overlap, not containment). -/
def overlaps {V : Type} (iv : IvE V) (bg en : ℚ) : Bool :=
  decide (iv.begin < en) && decide (bg < iv.endp)

/-- Resolve the stored attribute dict of an interval edge the way
`to_subgraph` reads it: `self._adj[iedge.data[0]][iedge]`, i.e. through
the `u` side only. -/
def heapAt {V : Type} [DecidableEq V] (G : IntervalGraph V) (iv : IvE V) :
    Except PyErr AttrDict :=
  match alookup G.adjN iv.u with
  | none => .error .keyError
  | some inner =>
    match alookup inner iv with
    | none => .error .keyError
    | some r =>
      match alookup G.heap r with
      | none => .error .keyError
      | some d => .ok d

/-- Python `dict(d, begin=bg, end=en)`: a copy of `d` with the two keyword
keys written last, so they win on a key collision. -/
def withIntervalData (d : AttrDict) (bg en : ℚ) : AttrDict :=
  aset (aset d "begin" bg) "end" en

/-- The static view handed to the external graph object: the list of
emitted `(u, v, attrs)` edge triples, in emission order. -/
structure SubView (V : Type) where
  edges : List (V × V × AttrDict)
deriving DecidableEq, Repr

/-- Error-propagating map over a list, modelling a Python loop that stops
at the first raised exception. -/
def exMapM {α β : Type} (f : α → Except PyErr β) : List α → Except PyErr (List β)
  | [] => .ok []
  | a :: l =>
    match f a with
    | .error e => .error e
    | .ok b =>
      match exMapM f l with
      | .error e => .error e
      | .ok bs => .ok (b :: bs)

/-- Edge triples emitted by `to_subgraph` for the matched intervals, per
data-flag combination (the four `add_edges_from` branches of the source). -/
def toSubgraphEdges {V : Type} [DecidableEq V] (G : IntervalGraph V)
    (bg en : ℚ) (edge_data edge_interval_data : Bool) :
    Except PyErr (List (V × V × AttrDict)) :=
  exMapM
    (fun iv =>
      if edge_data && edge_interval_data then
        (heapAt G iv).map fun d => (iv.u, iv.v, withIntervalData d iv.begin iv.endp)
      else if edge_data then
        (heapAt G iv).map fun d => (iv.u, iv.v, d)
      else if edge_interval_data then
        .ok (iv.u, iv.v, [("begin", iv.begin), ("end", iv.endp)])
      else
        .ok (iv.u, iv.v, []))
    (G.tree.filter (fun iv => overlaps iv bg en))

/-- `IntervalGraph.to_subgraph(begin, end, ...)`: rejects `end <= begin`,
then emits one edge per stored interval overlapping the window.  The
`multigraph` flag only selects the external result type and the
`node_data` flag only copies node attributes onto the emitted node set, so
neither is part of the state this embedding tracks. -/
def IntervalGraph.to_subgraph {V : Type} [DecidableEq V] (G : IntervalGraph V)
    (bg en : ℚ) (edge_data edge_interval_data : Bool) :
    Except PyErr (SubView V) :=
  if en ≤ bg then .error .invalidInterval
  else (toSubgraphEdges G bg en edge_data edge_interval_data).map SubView.mk

/-- The pure extraction with both data flags off. -/
def toSubgraphView {V : Type} [DecidableEq V] (G : IntervalGraph V)
    (bg en : ℚ) : SubView V :=
  ⟨(G.tree.filter (fun iv => overlaps iv bg en)).map fun iv => (iv.u, iv.v, [])⟩

/-- Undirected edge membership in an emitted view, as the external
`networkx.Graph` stores it (symmetric in the endpoints). -/
def SubView.hasEdge {V : Type} (w : SubView V) (a c : V) : Prop :=
  (∃ d, (a, c, d) ∈ w.edges) ∨ (∃ d, (c, a, d) ∈ w.edges)

/-- Node set of an emitted view: union of the endpoints of emitted edges
(`add_edges_from` creates exactly these; isolated store nodes never
appear). -/
def SubView.nodeList {V : Type} (w : SubView V) : List V :=
  w.edges.flatMap fun p => [p.1, p.2.1]

theorem alookup_aset_self {α β : Type} [DecidableEq α]
    (l : List (α × β)) (k : α) (v : β) : alookup (aset l k v) k = some v := by
  induction l with
  | nil => simp [aset, alookup]
  | cons p rest ih =>
    by_cases h : p.1 = k
    · simp [aset, alookup, h]
    · simp [aset, alookup, h, ih]

theorem alookup_aset_ne {α β : Type} [DecidableEq α]
    (l : List (α × β)) (k' k : α) (v : β) (h : k' ≠ k) :
    alookup (aset l k' v) k = alookup l k := by
  induction l with
  | nil => simp [aset, alookup, h]
  | cons p rest ih =>
    by_cases hp : p.1 = k'
    · simp [aset, alookup, hp, h]
    · simp [aset, alookup, hp, ih]

theorem withIntervalData_begin (d : AttrDict) (bg en : ℚ) :
    alookup (withIntervalData d bg en) "begin" = some bg := by
  unfold withIntervalData
  rw [alookup_aset_ne _ _ _ _ (by decide), alookup_aset_self]

theorem withIntervalData_end (d : AttrDict) (bg en : ℚ) :
    alookup (withIntervalData d bg en) "end" = some en := by
  unfold withIntervalData
  rw [alookup_aset_self]

theorem exMapM_ok_map {α β : Type} (f : α → Except PyErr β) (g : α → β)
    (l : List α) (h : ∀ x ∈ l, f x = .ok (g x)) :
    exMapM f l = .ok (l.map g) := by
  induction l with
  | nil => rfl
  | cons a l ih =>
    have ha : f a = .ok (g a) := h a (List.mem_cons_self a l)
    have hl : exMapM f l = .ok (l.map g) := ih fun x hx => h x (List.mem_cons_of_mem a hx)
    simp [exMapM, ha, hl]

theorem exMapM_mem {α β : Type} (f : α → Except PyErr β) (l : List α)
    (ys : List β) (h : exMapM f l = .ok ys) :
    ∀ y ∈ ys, ∃ x ∈ l, f x = .ok y := by
  induction l generalizing ys with
  | nil =>
    simp only [exMapM, Except.ok.injEq] at h
    subst h
    intro y hy
    simp at hy
  | cons a l ih =>
    intro y hy
    simp only [exMapM] at h
    cases hfa : f a with
    | error e => rw [hfa] at h; exact absurd h (by simp)
    | ok b =>
      rw [hfa] at h
      cases hfl : exMapM f l with
      | error e => rw [hfl] at h; exact absurd h (by simp)
      | ok bs =>
        rw [hfl] at h
        simp only [Except.ok.injEq] at h
        subst h
        rcases List.mem_cons.1 hy with hy | hy
        · exact ⟨a, List.mem_cons_self a l, hy ▸ hfa⟩
        · obtain ⟨x, hx, hfx⟩ := ih bs hfl y hy
          exact ⟨x, List.mem_cons_of_mem a hx, hfx⟩

theorem to_subgraph_ok {V : Type} [DecidableEq V] (G : IntervalGraph V)
    (bg en : ℚ) (h : bg < en) :
    G.to_subgraph bg en false false = .ok (toSubgraphView G bg en) := by
  unfold IntervalGraph.to_subgraph
  rw [if_neg (not_le.2 h)]
  unfold toSubgraphEdges
  rw [exMapM_ok_map _ (fun iv => (iv.u, iv.v, ([] : AttrDict))) _ (fun x _ => by simp)]
  rfl

def SubgraphSpec {V : Type} [DecidableEq V] (G : IntervalGraph V) (bg en : ℚ) : Prop :=
  (G.to_subgraph bg en false false = .ok (toSubgraphView G bg en)) ∧
  (∀ a c, (toSubgraphView G bg en).hasEdge a c ↔
    ∃ iv ∈ G.tree, (iv.begin < en ∧ bg < iv.endp) ∧
      ((iv.u = a ∧ iv.v = c) ∨ (iv.u = c ∧ iv.v = a))) ∧
  (∀ x, x ∈ (toSubgraphView G bg en).nodeList ↔
    ∃ iv ∈ G.tree, (iv.begin < en ∧ bg < iv.endp) ∧ (iv.u = x ∨ iv.v = x)) ∧
  (∀ w, G.to_subgraph bg en true true = .ok w →
    ∀ a c d, (a, c, d) ∈ w.edges →
      ∃ iv ∈ G.tree, (iv.begin < en ∧ bg < iv.endp) ∧ iv.u = a ∧ iv.v = c ∧
        alookup d "begin" = some iv.begin ∧ alookup d "end" = some iv.endp)


/-- C7: for every window with `begin < end`, `to_subgraph` succeeds and
returns a view whose edge set is exactly the endpoint pairs of the stored
intervals overlapping the window half-openly (`iv.begin < end` and
`iv.end > begin`), whose node set is exactly the union of the endpoints of
those emitted edges, and in which, when interval data is requested, the
interval's own `begin`/`end` values win over stored attribute keys of the
same name. -/
theorem C7_subgraph_thm {V : Type} [DecidableEq V] (G : IntervalGraph V)
    (bg en : ℚ) (h : bg < en) : SubgraphSpec G bg en := by
  refine ⟨to_subgraph_ok G bg en h, ?_, ?_, ?_⟩
  · intro a c
    simp only [SubView.hasEdge, toSubgraphView, List.mem_map, List.mem_filter,
      overlaps, Bool.and_eq_true, decide_eq_true_eq, Prod.mk.injEq]
    constructor
    · rintro (⟨d, iv, ⟨hmem, h1, h2⟩, hu, hv, _⟩ | ⟨d, iv, ⟨hmem, h1, h2⟩, hu, hv, _⟩)
      · exact ⟨iv, hmem, ⟨h1, h2⟩, Or.inl ⟨hu, hv⟩⟩
      · exact ⟨iv, hmem, ⟨h1, h2⟩, Or.inr ⟨hu, hv⟩⟩
    · rintro ⟨iv, hmem, ⟨h1, h2⟩, ⟨hu, hv⟩ | ⟨hu, hv⟩⟩
      · exact Or.inl ⟨[], iv, ⟨hmem, h1, h2⟩, hu, hv, rfl⟩
      · exact Or.inr ⟨[], iv, ⟨hmem, h1, h2⟩, hu, hv, rfl⟩
  · intro x
    simp only [SubView.nodeList, toSubgraphView, List.mem_flatMap, List.mem_map,
      List.mem_filter, overlaps, Bool.and_eq_true, decide_eq_true_eq]
    constructor
    · rintro ⟨p, ⟨iv, ⟨hmem, h1, h2⟩, hp⟩, hx⟩
      subst hp
      simp only [List.mem_cons, List.not_mem_nil, or_false] at hx
      rcases hx with hx | hx
      · exact ⟨iv, hmem, ⟨h1, h2⟩, Or.inl hx.symm⟩
      · exact ⟨iv, hmem, ⟨h1, h2⟩, Or.inr hx.symm⟩
    · rintro ⟨iv, hmem, ⟨h1, h2⟩, hx | hx⟩
      · exact ⟨(iv.u, iv.v, []), ⟨iv, ⟨hmem, h1, h2⟩, rfl⟩, by simp [hx]⟩
      · exact ⟨(iv.u, iv.v, []), ⟨iv, ⟨hmem, h1, h2⟩, rfl⟩, by simp [hx]⟩
  · intro w hw a c d hmemw
    unfold IntervalGraph.to_subgraph at hw
    rw [if_neg (not_le.2 h)] at hw
    cases hes : toSubgraphEdges G bg en true true with
    | error e => rw [hes] at hw; exact absurd hw (by simp [Except.map])
    | ok es =>
      rw [hes] at hw
      simp only [Except.map, Except.ok.injEq] at hw
      subst hw
      obtain ⟨iv, hivmem, hfx⟩ := exMapM_mem _ _ _ hes (a, c, d) hmemw
      rw [List.mem_filter] at hivmem
      obtain ⟨hmem, hov⟩ := hivmem
      simp only [overlaps, Bool.and_eq_true, decide_eq_true_eq] at hov
      simp only [Bool.and_self, if_pos] at hfx
      cases hha : heapAt G iv with
      | error e => rw [hha] at hfx; exact absurd hfx (by simp [Except.map])
      | ok d0 =>
        rw [hha] at hfx
        simp only [Except.map, Except.ok.injEq, Prod.mk.injEq] at hfx
        obtain ⟨hu, hv, hd⟩ := hfx
        refine ⟨iv, hmem, ⟨hov.1, hov.2⟩, hu, hv, ?_, ?_⟩
        · rw [← hd]; exact withIntervalData_begin d0 iv.begin iv.endp
        · rw [← hd]; exact withIntervalData_end d0 iv.begin iv.endp


/-- C7 witness: the subgraph characterisation applied to the store built
by `add_edge(1, 2, 0, 5, end=9)` with window `[0, 1)`; the stored `end`
attribute is present to exercise the interval-fields-win clause. -/
theorem C7_witness :
    ((0 : ℚ) < 1) ∧
    SubgraphSpec (((emptyIG ℕ).add_edge 1 2 0 5 [("end", 9)]).2) 0 1 :=
  ⟨by norm_num,
    C7_subgraph_thm (((emptyIG ℕ).add_edge 1 2 0 5 [("end", 9)]).2) 0 1 (by norm_num)⟩

/-- State of one `SnapshotGraph` object: `snapshots` is the list of
`(graph, length)` run tuples, `total_snapshots` the incrementally
maintained total.  Views are an abstract type with decidable structural
equality, modelling `check_equality` (same `_adj`, same edges, same
nodes). -/
structure SnapshotGraph (View : Type) where
  snapshots : List (View × Nat)
  total_snapshots : Nat
deriving DecidableEq, Repr

/-- A freshly constructed `SnapshotGraph()`. -/
def emptySG (View : Type) : SnapshotGraph View :=
  { snapshots := [], total_snapshots := 0 }

/-- Sum of the stored run lengths (the logical number of snapshots the
run-length-compressed list represents). -/
def sumLen {View : Type} (runs : List (View × Nat)) : Nat :=
  (runs.map (fun p => p.2)).sum

/-- The logical snapshot list that a run list represents: each run's view
repeated its length many times. -/
def expandRuns {View : Type} (runs : List (View × Nat)) : List View :=
  runs.flatMap fun p => List.replicate p.2 p.1

/-- The append path of `SnapshotGraph.add_snapshot` (taken when no
position was given, a falsy `0` was given, or the position equals
`total_snapshots + 1`): merge into the last run when its view is
structurally equal to the new one, else append a run of length 1; the
total always grows by 1. -/
def SnapshotGraph.append {View : Type} [DecidableEq View]
    (s : SnapshotGraph View) (g : View) : SnapshotGraph View :=
  match s.snapshots.getLast? with
  | some (v, n) =>
    if v = g then
      ⟨s.snapshots.dropLast ++ [(v, n + 1)], s.total_snapshots + 1⟩
    else
      ⟨s.snapshots ++ [(g, 1)], s.total_snapshots + 1⟩
  | none => ⟨[(g, 1)], s.total_snapshots + 1⟩

/-- Appending the same view `n` times onto a fresh `SnapshotGraph`. -/
def appendIter {View : Type} [DecidableEq View] (g : View) : Nat → SnapshotGraph View
  | 0 => emptySG View
  | n + 1 => (appendIter g n).append g

/-- Building a `SnapshotGraph` by appending the given views in order. -/
def appendAll {View : Type} [DecidableEq View] (l : List View) : SnapshotGraph View :=
  l.foldl (fun s g => s.append g) (emptySG View)

/-- Python `list.insert(i, x)` (insert before position `i`, clamping to
the end when `i` exceeds the length). -/
def insertAt {α : Type} (l : List α) (i : Nat) (a : α) : List α :=
  l.take i ++ a :: l.drop i

/-- The walk loop of `SnapshotGraph.insert`, made total with explicit
fuel (the loop can diverge: the boundary-insert branch neither returns
nor advances `snaps_traveled`, so a freshly inserted run can re-trigger
it forever).  State is `(runs, snaps, snaps_traveled, total)`; one fuel
unit is one iteration of the `while` loop.  Faithful to the source,
including the double `snaps` increment on the skip branch and the
missing total update and missing return on the boundary branch. -/
def insertLoop {View : Type} (g : View) (slen num : Nat) :
    Nat → List (View × Nat) → Nat → Nat → Nat → List (View × Nat) × Nat
  | 0, runs, _, _, total => (runs, total)
  | fuel + 1, runs, snaps, tr, total =>
    match runs.get? snaps with
    | none => (runs, total)
    | some (v, len) =>
      if tr + len < num then
        insertLoop g slen num fuel runs (snaps + 2) (tr + len) total
      else if tr + len = num then
        insertLoop g slen num fuel (insertAt runs (snaps + 1) (g, slen)) (snaps + 1) tr total
      else
        let iters := num - tr
        let runs1 := runs.set snaps (v, iters)
        let runs2 := insertAt runs1 (snaps + 1) (g, slen)
        let runs3 := insertAt runs2 (snaps + 2) (v, len - iters)
        (runs3, total + slen)

/-- `SnapshotGraph.insert(g_to_insert, snap_len, num_in_seq)` with the
walk loop run on the given fuel. -/
def SnapshotGraph.insert {View : Type} (s : SnapshotGraph View) (g : View)
    (slen num fuel : Nat) : SnapshotGraph View :=
  let p := insertLoop g slen num fuel s.snapshots 0 0 s.total_snapshots
  ⟨p.1, p.2⟩

/-- The inner `while iters < run_length` loop of `SnapshotGraph.generator`:
walks the logical positions of one run, yielding its view at each position
inside `[start, end)` and returning (flag `true`) as soon as the traveled
count reaches `end`.  Arguments: view, start, end, remaining iterations,
traveled count; result: yielded views, early-return flag, new traveled
count. -/
def innerRun {View : Type} (v : View) (s e : Nat) :
    Nat → Nat → List View × Bool × Nat
  | 0, tr => ([], false, tr)
  | n + 1, tr =>
    let ys : List View := if s ≤ tr ∧ tr < e then [v] else []
    if e ≤ tr + 1 then (ys, true, tr + 1)
    else
      let rest := innerRun v s e n (tr + 1)
      (ys ++ rest.1, rest.2.1, rest.2.2)

/-- The outer loop of `SnapshotGraph.generator`: skip a whole run while
`snaps_traveled + run_length < start`, else walk it with `innerRun`,
stopping the whole generator when the inner loop returned. -/
def generatorList {View : Type} (s e : Nat) :
    List (View × Nat) → Nat → List View
  | [], _ => []
  | (v, len) :: rest, tr =>
    if tr + len < s then generatorList s e rest (tr + len)
    else
      let r := innerRun v s e len tr
      if r.2.1 then r.1
      else r.1 ++ generatorList s e rest r.2.2

/-- `SnapshotGraph.generator(start, end)`, collected into a list. -/
def SnapshotGraph.generator {View : Type} (sg : SnapshotGraph View)
    (s e : Nat) : List View :=
  generatorList s e sg.snapshots 0

/-- Option-propagating map over a list: Python list indexing inside a
comprehension, failing with `IndexError` at the first out-of-range index. -/
def opMapM {α β : Type} (f : α → Option β) : List α → Option (List β)
  | [] => some []
  | a :: l =>
    match f a with
    | none => none
    | some b =>
      match opMapM f l with
      | none => none
      | some bs => some (b :: bs)

/-- `SnapshotGraph.get(sbunch)`: computes `min(sbunch)` and `max(sbunch)`
(`ValueError` on an empty list, as Python's `min` raises), materialises
`generator(min, max)` and indexes the resulting list at `index - min` for
each requested index (`IndexError` when out of range). -/
def SnapshotGraph.get {View : Type} (sg : SnapshotGraph View)
    (sbunch : List Nat) : Except PyErr (List View) :=
  match sbunch with
  | [] => .error .valueError
  | h :: t =>
    let mn := t.foldl min h
    let mx := t.foldl max h
    let gl := generatorList mn mx sg.snapshots 0
    match opMapM (fun idx => gl.get? (idx - mn)) sbunch with
    | some l => .ok l
    | none => .error .indexError

def winFilter {View : Type} (s e : Nat) (p : Nat × View) : Option View :=
  if s ≤ p.1 ∧ p.1 < e then some p.2 else none

theorem range'_filter_empty_of_ge (s e : Nat) :
    ∀ (n t : Nat), e ≤ t →
      (List.range' t n).filter (fun i => decide (s ≤ i) && decide (i < e)) = [] := by
  intro n t ht
  rw [List.filter_eq_nil_iff]
  intro a ha
  rw [List.mem_range'] at ha
  obtain ⟨i, _, rfl⟩ := ha
  simp only [Bool.and_eq_true, decide_eq_true_eq, not_and]
  intro _
  omega

theorem innerRun_spec {View : Type} (v : View) (s e : Nat) :
    ∀ (len tr : Nat),
      (innerRun v s e len tr).1
        = ((List.range' tr len).filter
            (fun i => decide (s ≤ i) && decide (i < e))).map (fun _ => v) ∧
      ((innerRun v s e len tr).2.1 = true → e ≤ tr + len) ∧
      ((innerRun v s e len tr).2.1 = false → (innerRun v s e len tr).2.2 = tr + len) := by
  intro len
  induction len with
  | zero => intro tr; refine ⟨rfl, by simp [innerRun], by simp [innerRun]⟩
  | succ n ih =>
    intro tr
    by_cases he : e ≤ tr + 1
    · refine ⟨?_, fun _ => by omega, ?_⟩
      · show (innerRun v s e (n+1) tr).1 = _
        rw [List.range'_succ]
        rw [List.filter_cons]
        rw [range'_filter_empty_of_ge s e n (tr+1) he]
        simp only [innerRun, if_pos he]
        by_cases hy : s ≤ tr ∧ tr < e
        · simp [hy]
        · simp [hy]
      · intro hfalse
        exact absurd hfalse (by simp only [innerRun, if_pos he]; simp)
    · have hrec := ih (tr + 1)
      refine ⟨?_, ?_, ?_⟩
      · show (innerRun v s e (n+1) tr).1 = _
        rw [List.range'_succ, List.filter_cons]
        simp only [innerRun, if_neg he]
        rw [hrec.1]
        by_cases hy : s ≤ tr ∧ tr < e
        · simp [hy]
        · simp [hy]
      · intro htrue
        simp only [innerRun, if_neg he] at htrue
        have := hrec.2.1 htrue
        omega
      · intro hfalse
        simp only [innerRun, if_neg he] at hfalse ⊢
        have := hrec.2.2 hfalse
        omega

theorem range'_filter_empty_of_le (s e : Nat) :
    ∀ (n t : Nat), t + n ≤ s →
      (List.range' t n).filter (fun i => decide (s ≤ i) && decide (i < e)) = [] := by
  intro n t ht
  rw [List.filter_eq_nil_iff]
  intro a ha
  rw [List.mem_range'] at ha
  obtain ⟨i, hi, rfl⟩ := ha
  simp only [Bool.and_eq_true, decide_eq_true_eq, not_and]
  intro hs
  omega

theorem expandRuns_cons {View : Type} (v : View) (len : Nat)
    (rest : List (View × Nat)) :
    expandRuns ((v, len) :: rest) = List.replicate len v ++ expandRuns rest := by
  simp [expandRuns]

theorem filterMap_winFilter_empty {View : Type} (s e : Nat) :
    ∀ (L : List View) (t : Nat), e ≤ t →
      List.filterMap (winFilter s e) (List.enumFrom t L) = [] := by
  intro L
  induction L with
  | nil => intro t _; rfl
  | cons a L ih =>
    intro t ht
    simp only [List.enumFrom, List.filterMap_cons]
    rw [show winFilter s e (t, a) = none by simp [winFilter]; omega]
    exact ih (t + 1) (by omega)

theorem filterMap_winFilter_replicate {View : Type} (s e : Nat) (v : View) :
    ∀ (n t : Nat),
      List.filterMap (winFilter s e) (List.enumFrom t (List.replicate n v))
        = ((List.range' t n).filter
            (fun i => decide (s ≤ i) && decide (i < e))).map (fun _ => v) := by
  intro n
  induction n with
  | zero => intro t; rfl
  | succ m ih =>
    intro t
    rw [List.replicate_succ, List.range'_succ]
    simp only [List.enumFrom, List.filterMap_cons, List.filter_cons]
    by_cases hy : s ≤ t ∧ t < e
    · rw [show winFilter s e (t, v) = some v by simp [winFilter, hy]]
      rw [if_pos (by simp [hy])]
      simp [ih (t + 1)]
    · rw [show winFilter s e (t, v) = none by simp only [winFilter, if_neg hy]]
      rw [if_neg (by simpa using hy)]
      exact ih (t + 1)

theorem generatorList_eq_filterMap {View : Type} (s e : Nat) :
    ∀ (runs : List (View × Nat)) (tr : Nat),
      generatorList s e runs tr
        = List.filterMap (winFilter s e) (List.enumFrom tr (expandRuns runs)) := by
  intro runs
  induction runs with
  | nil => intro tr; rfl
  | cons p rest ih =>
    intro tr
    obtain ⟨v, len⟩ := p
    rw [expandRuns_cons, List.enumFrom_append, List.filterMap_append,
      List.length_replicate, filterMap_winFilter_replicate]
    show generatorList s e ((v, len) :: rest) tr = _
    by_cases hskip : tr + len < s
    · rw [show generatorList s e ((v, len) :: rest) tr
          = generatorList s e rest (tr + len) by
        simp only [generatorList, if_pos hskip]]
      rw [range'_filter_empty_of_le s e len tr (by omega)]
      simp [ih (tr + len)]
    · have hspec := innerRun_spec v s e len tr
      rw [show generatorList s e ((v, len) :: rest) tr
          = (if (innerRun v s e len tr).2.1 then (innerRun v s e len tr).1
             else (innerRun v s e len tr).1 ++ generatorList s e rest (innerRun v s e len tr).2.2) by
        simp only [generatorList, if_neg hskip]]
      by_cases hterm : (innerRun v s e len tr).2.1 = true
      · rw [if_pos hterm, hspec.1]
        rw [filterMap_winFilter_empty s e (expandRuns rest) (tr + len) (hspec.2.1 hterm)]
        simp
      · rw [if_neg hterm, hspec.1, hspec.2.2 (by simpa using hterm), ih (tr + len)]

theorem filterMap_winFilter_take_drop {View : Type} (s e : Nat) :
    ∀ (L : List View) (t : Nat),
      List.filterMap (winFilter s e) (List.enumFrom t L)
        = (L.take (e - t)).drop (s - t) := by
  intro L
  induction L with
  | nil => intro t; simp
  | cons a L ih =>
    intro t
    simp only [List.enumFrom, List.filterMap_cons]
    by_cases hte : t < e
    · have h1 : e - t = (e - (t + 1)) + 1 := by omega
      rw [h1, List.take_succ_cons]
      by_cases hst : s ≤ t
      · rw [show winFilter s e (t, a) = some a by simp [winFilter, hst, hte]]
        have h2 : s - t = 0 := by omega
        have h3 : s - (t + 1) = 0 := by omega
        rw [h2, List.drop_zero, ih (t + 1), h3, List.drop_zero]
      · rw [show winFilter s e (t, a) = none by
          simp only [winFilter]; rw [if_neg (by omega)]]
        have h2 : s - t = (s - (t + 1)) + 1 := by omega
        rw [h2, List.drop_succ_cons, ih (t + 1)]
    · have h1 : e - t = 0 := by omega
      have h2 : e - (t + 1) = 0 := by omega
      rw [show winFilter s e (t, a) = none by
        simp only [winFilter]; rw [if_neg (by omega)]]
      rw [ih (t + 1), h1, h2]
      simp

theorem length_expandRuns {View : Type} :
    ∀ (runs : List (View × Nat)), (expandRuns runs).length = sumLen runs := by
  intro runs
  induction runs with
  | nil => rfl
  | cons p rest ih =>
    obtain ⟨v, len⟩ := p
    rw [expandRuns_cons]
    simp [sumLen, ih]

theorem generatorList_take_drop {View : Type} (s e : Nat)
    (runs : List (View × Nat)) :
    generatorList s e runs 0 = ((expandRuns runs).take e).drop s := by
  rw [generatorList_eq_filterMap, filterMap_winFilter_take_drop]
  simp

theorem generatorList_length {View : Type} (s e : Nat)
    (runs : List (View × Nat)) :
    (generatorList s e runs 0).length = min e (sumLen runs) - s := by
  rw [generatorList_take_drop, List.length_drop, List.length_take, length_expandRuns]

/-- C9: for every snapshot sequence and every index pair, the range
cursor `generator(start, end)` yields exactly the logical snapshot list
restricted to positions `[start, end)` — that is, `min(end, length) -
start` views (with truncated subtraction), the i-th being the run view at
logical position `start + i`; in particular over runs `[(A,3),(B,2)]` the
cursor for `[2,4)` yields `[A, B]`. -/
theorem C9_generator_thm :
    (∀ (View : Type) (sg : SnapshotGraph View) (s e : Nat),
      sg.generator s e = ((expandRuns sg.snapshots).take e).drop s ∧
      (sg.generator s e).length = min e (sumLen sg.snapshots) - s) ∧
    SnapshotGraph.generator ⟨[((0 : Nat), 3), (1, 2)], 5⟩ 2 4 = [0, 1] := by
  refine ⟨?_, by decide⟩
  intro View sg s e
  exact ⟨generatorList_take_drop s e sg.snapshots,
    generatorList_length s e sg.snapshots⟩

theorem foldl_max_mem (h : Nat) : ∀ (t : List Nat), t.foldl max h ∈ h :: t := by
  intro t
  induction t generalizing h with
  | nil => simp
  | cons a t ih =>
    rw [List.foldl_cons]
    rcases List.mem_cons.1 (ih (max h a)) with hm | hm
    · rw [hm]
      rcases max_choice h a with hc | hc <;> rw [hc] <;> simp
    · exact List.mem_cons.2 (Or.inr (List.mem_cons.2 (Or.inr hm)))

theorem opMapM_eq_none {α β : Type} (f : α → Option β) :
    ∀ (l : List α) (x : α), x ∈ l → f x = none → opMapM f l = none := by
  intro l
  induction l with
  | nil => intro x hx; simp at hx
  | cons a l ih =>
    intro x hx hfx
    rcases List.mem_cons.1 hx with rfl | hx
    · simp [opMapM, hfx]
    · simp only [opMapM]
      cases hfa : f a with
      | none => rfl
      | some b => rw [ih x hx hfx]

/-- C5: the claim says the indexed-fetch family runs one cursor over
`[min(indices), max(indices)+1)` and returns the view at every requested
position.  The code instead runs `generator(min, max)` — the non-inclusive
end is `max`, not `max+1` — and then indexes the materialised list at
`index - min` for `index = max`, which is always one past its end, so
*every* call with a non-empty index list raises `IndexError` instead of
returning the views. -/
theorem C5_get_always_raises {View : Type} (sg : SnapshotGraph View)
    (h : Nat) (t : List Nat) :
    sg.get (h :: t) = .error .indexError := by
  have hmx : t.foldl max h ∈ h :: t := foldl_max_mem h t
  have hlen : (generatorList (t.foldl min h) (t.foldl max h) sg.snapshots 0).length
      ≤ t.foldl max h - t.foldl min h := by
    rw [generatorList_length]
    omega
  have hnone : (generatorList (t.foldl min h) (t.foldl max h) sg.snapshots 0).get?
      (t.foldl max h - t.foldl min h) = none :=
    List.get?_eq_none.2 hlen
  rw [show sg.get (h :: t)
      = (match opMapM (fun idx =>
            (generatorList (t.foldl min h) (t.foldl max h) sg.snapshots 0).get?
              (idx - t.foldl min h)) (h :: t) with
          | some l => Except.ok l
          | none => Except.error PyErr.indexError) from rfl]
  rw [opMapM_eq_none _ (h :: t) (t.foldl max h) hmx hnone]

theorem append_total {View : Type} [DecidableEq View]
    (s : SnapshotGraph View) (g : View) :
    (s.append g).total_snapshots = s.total_snapshots + 1 := by
  unfold SnapshotGraph.append
  rcases hl : s.snapshots.getLast? with _ | ⟨v, n⟩
  · rfl
  · by_cases h : v = g <;> simp [h]

theorem appendIter_run {View : Type} [DecidableEq View] (g : View) :
    ∀ N : Nat, 1 ≤ N → appendIter g N = ⟨[(g, N)], N⟩ := by
  intro N
  induction N with
  | zero => intro h; omega
  | succ n ih =>
    intro _
    cases n with
    | zero => rfl
    | succ m =>
      rw [show appendIter g (m + 1 + 1) = (appendIter g (m + 1)).append g from rfl,
        ih (by omega)]
      simp [SnapshotGraph.append]

/-- C8: append (the `add_snapshot` path taken with no position or with
position `total + 1`) always increases the total by exactly 1, merging
into the last run when the views are structurally equal; consequently
appending one view `N >= 1` times onto a fresh sequence yields exactly the
single run `(view, N)` with total `N`. -/
theorem C8_append_thm :
    (∀ (View : Type) [inst : DecidableEq View] (s : SnapshotGraph View) (g : View),
      (s.append g).total_snapshots = s.total_snapshots + 1) ∧
    (∀ (View : Type) [inst : DecidableEq View] (g : View) (N : Nat), 1 ≤ N →
      appendIter g N = ⟨[(g, N)], N⟩) :=
  ⟨fun _ _ s g => append_total s g, fun _ _ g N h => appendIter_run g N h⟩

/-- C8 witness: three consecutive appends of one view produce the single
run of length 3. -/
theorem C8_witness :
    1 ≤ 3 ∧ appendIter (0 : Nat) 3 = ⟨[(0, 3)], 3⟩ :=
  ⟨by decide, C8_append_thm.2 Nat 0 3 (by decide)⟩

def distinctAdj {View : Type} [DecidableEq View] : List View → Bool
  | [] => true
  | [_] => true
  | a :: b :: t => decide (a ≠ b) && distinctAdj (b :: t)

def noAdjacentDup {View : Type} [DecidableEq View]
    (runs : List (View × Nat)) : Bool :=
  distinctAdj (runs.map fun p => p.1)

theorem distinctAdj_append_single {View : Type} [DecidableEq View] :
    ∀ (xs : List View) (y : View), distinctAdj xs = true →
      (∀ z, xs.getLast? = some z → z ≠ y) →
      distinctAdj (xs ++ [y]) = true := by
  intro xs
  induction xs with
  | nil => intro y _ _; rfl
  | cons a rest ih =>
    intro y hd hlast
    cases rest with
    | nil =>
      have hay : a ≠ y := hlast a rfl
      simp [distinctAdj, hay]
    | cons b t =>
      have hd2 : distinctAdj (b :: t) = true := by
        simp only [distinctAdj, Bool.and_eq_true] at hd
        exact hd.2
      have hab : a ≠ b := by
        simp only [distinctAdj, Bool.and_eq_true, decide_eq_true_eq] at hd
        exact hd.1
      have hlast2 : ∀ z, (b :: t).getLast? = some z → z ≠ y := by
        intro z hz
        exact hlast z (by rw [← hz]; rfl)
      have := ih y hd2 hlast2
      simp only [List.cons_append, distinctAdj, Bool.and_eq_true, decide_eq_true_eq]
      exact ⟨hab, by simpa using this⟩

theorem sumLen_append_single {View : Type} (xs : List (View × Nat)) (p : View × Nat) :
    sumLen (xs ++ [p]) = sumLen xs + p.2 := by
  simp [sumLen]

theorem append_preserves_inv {View : Type} [DecidableEq View]
    (s : SnapshotGraph View) (g : View)
    (h1 : noAdjacentDup s.snapshots = true)
    (h2 : s.total_snapshots = sumLen s.snapshots) :
    noAdjacentDup (s.append g).snapshots = true ∧
    (s.append g).total_snapshots = sumLen (s.append g).snapshots := by
  unfold SnapshotGraph.append
  rcases hl : s.snapshots.getLast? with _ | ⟨v, n⟩
  · have hnil : s.snapshots = [] := List.getLast?_eq_none_iff.1 hl
    rw [hnil] at h2
    simp only [hnil] at h2 ⊢
    constructor
    · rfl
    · simp [sumLen] at h2 ⊢
      omega
  · have hsplit : s.snapshots.dropLast ++ [(v, n)] = s.snapshots :=
      List.dropLast_append_getLast? (v, n) hl
    dsimp only
    by_cases hveq : v = g
    · rw [if_pos hveq]
      constructor
      · show distinctAdj ((s.snapshots.dropLast ++ [(v, n + 1)]).map fun p => p.1) = true
        have : (s.snapshots.dropLast ++ [(v, n + 1)]).map (fun p => p.1)
            = (s.snapshots.dropLast ++ [(v, n)]).map (fun p => p.1) := by
          simp
        rw [this, hsplit]
        exact h1
      · show s.total_snapshots + 1 = sumLen (s.snapshots.dropLast ++ [(v, n + 1)])
        rw [sumLen_append_single]
        have := sumLen_append_single s.snapshots.dropLast (v, n)
        rw [hsplit] at this
        omega
    · rw [if_neg hveq]
      constructor
      · show noAdjacentDup (s.snapshots ++ [(g, 1)]) = true
        unfold noAdjacentDup
        rw [List.map_append]
        refine distinctAdj_append_single _ _ h1 ?_
        intro z hz
        rw [List.getLast?_map, hl] at hz
        have hzv : v = z := by simpa using hz
        rw [← hzv]
        exact hveq
      · show s.total_snapshots + 1 = sumLen (s.snapshots ++ [(g, 1)])
        rw [sumLen_append_single]
        omega

theorem appendAll_inv {View : Type} [DecidableEq View] (l : List View) :
    ∀ (s : SnapshotGraph View),
      noAdjacentDup s.snapshots = true →
      s.total_snapshots = sumLen s.snapshots →
      noAdjacentDup (l.foldl (fun s g => s.append g) s).snapshots = true ∧
      (l.foldl (fun s g => s.append g) s).total_snapshots
        = sumLen (l.foldl (fun s g => s.append g) s).snapshots := by
  induction l with
  | nil => intro s h1 h2; exact ⟨h1, h2⟩
  | cons a l ih =>
    intro s h1 h2
    rw [List.foldl_cons]
    have := append_preserves_inv s a h1 h2
    exact ih (s.append a) this.1 this.2

/-- C4 (amended): the two `SnapshotSequence` invariants — no two adjacent
runs with structurally-equal views, and tracked total equal to the sum of
run lengths — hold for every sequence reachable from the empty sequence by
`add_snapshot` appends alone.  Positional `insert` does not preserve them:
its boundary branch inserts the new run without updating the tracked
total (and without re-checking adjacent equality), so the claim as stated
over append-and-insert-reachable sequences is false. -/
theorem C4_amended_thm {View : Type} [DecidableEq View] (l : List View) :
    noAdjacentDup (appendAll l).snapshots = true ∧
    (appendAll l).total_snapshots = sumLen (appendAll l).snapshots :=
  appendAll_inv l (emptySG View) rfl rfl

/-- C4 counterexample: the sequence reached by three appends of view `0`
followed by `insert(view 1, run_length 2, index 3)` — the index landing
exactly at the run boundary — has tracked total 3 but run-length sum 5:
the insert increased the total by 0, not by `run_length`, breaking
invariant (2) of the claim. -/
theorem C4_counterexample :
    ((appendIter (0 : Nat) 3).insert 1 2 3 100).total_snapshots = 3 ∧
    sumLen ((appendIter (0 : Nat) 3).insert 1 2 3 100).snapshots = 5 ∧
    ((appendIter (0 : Nat) 3).insert 1 2 3 100).total_snapshots
      ≠ sumLen ((appendIter (0 : Nat) 3).insert 1 2 3 100).snapshots :=
  ⟨by decide, by decide, by decide⟩

/-- The minimum stored begin, as `IntervalTree.begin()` returns it (0 on
an empty tree). -/
def treeBegin {V : Type} : List (IvE V) → ℚ
  | [] => 0
  | iv :: rest => rest.foldl (fun a j => min a j.begin) iv.begin

/-- The maximum stored end, as `IntervalTree.end()` returns it (0 on an
empty tree). -/
def treeEnd {V : Type} : List (IvE V) → ℚ
  | [] => 0
  | iv :: rest => rest.foldl (fun a j => max a j.endp) iv.endp

/-- `IntervalGraph.interval()`: the total temporal span `(begin, end)`. -/
def IntervalGraph.interval {V : Type} (G : IntervalGraph V) : ℚ × ℚ :=
  (treeBegin G.tree, treeEnd G.tree)

/-- A Python number passed as `number_of_snapshots`: an `int` or a
`float`; the source checks `number_of_snapshots < 2 or
type(number_of_snapshots) is not int`. -/
inductive PyNum : Type
  | int (n : ℤ)
  | float (q : ℚ)
deriving DecidableEq, Repr

/-- Whether `type(k) is int`. -/
def PyNum.isInt : PyNum → Bool
  | .int _ => true
  | .float _ => false

/-- The numeric value of the Python number. -/
def PyNum.valQ : PyNum → ℚ
  | .int n => (n : ℚ)
  | .float q => q

/-- Lower end of snapshot window `i`: `begin + snapshot_len * i`. -/
def snapLo (bg w : ℚ) (i : ℕ) : ℚ := bg + w * (i : ℚ)

/-- Upper end of snapshot window `i` of `k`:
`begin + snapshot_len * (i + 1) + end_inclusive_addition`, the addition
being 1 exactly on the last window. -/
def snapHi (bg w : ℚ) (k i : ℕ) : ℚ :=
  bg + w * ((i : ℚ) + 1) + (if i = k - 1 then 1 else 0)

/-- `IntervalGraph.to_snapshots(number_of_snapshots, ...)`: rejects a
count that is `< 2` or not an `int`, computes the span via `interval()`
and the window width `(end - begin) / number_of_snapshots`, and returns
the `to_subgraph` results of the `number_of_snapshots` consecutive
windows, the last widened by one unit. -/
def IntervalGraph.to_snapshots {V : Type} [DecidableEq V] (G : IntervalGraph V)
    (k : PyNum) (edge_data edge_interval_data : Bool) :
    Except PyErr (List (SubView V)) :=
  if k.valQ < 2 ∨ k.isInt = false then .error .invalidArgument
  else
    match k with
    | .float _ => .error .invalidArgument
    | .int n =>
      let bg := treeBegin G.tree
      let w := (treeEnd G.tree - bg) / (n : ℚ)
      exMapM
        (fun i => G.to_subgraph (snapLo bg w i) (snapHi bg w n.toNat i)
          edge_data edge_interval_data)
        (List.range n.toNat)

theorem foldl_min_le_init {V : Type} :
    ∀ (l : List (IvE V)) (a : ℚ), l.foldl (fun x j => min x j.begin) a ≤ a := by
  intro l
  induction l with
  | nil => intro a; exact le_refl a
  | cons j rest ih =>
    intro a
    rw [List.foldl_cons]
    exact le_trans (ih (min a j.begin)) (min_le_left a j.begin)

theorem foldl_min_le_mem {V : Type} :
    ∀ (l : List (IvE V)) (a : ℚ) (iv : IvE V), iv ∈ l →
      l.foldl (fun x j => min x j.begin) a ≤ iv.begin := by
  intro l
  induction l with
  | nil => intro a iv h; simp at h
  | cons j rest ih =>
    intro a iv h
    rw [List.foldl_cons]
    rcases List.mem_cons.1 h with rfl | h
    · exact le_trans (foldl_min_le_init rest (min a iv.begin)) (min_le_right a iv.begin)
    · exact ih (min a j.begin) iv h

theorem foldl_max_init_le {V : Type} :
    ∀ (l : List (IvE V)) (a : ℚ), a ≤ l.foldl (fun x j => max x j.endp) a := by
  intro l
  induction l with
  | nil => intro a; exact le_refl a
  | cons j rest ih =>
    intro a
    rw [List.foldl_cons]
    exact le_trans (le_max_left a j.endp) (ih (max a j.endp))

theorem foldl_max_mem_le {V : Type} :
    ∀ (l : List (IvE V)) (a : ℚ) (iv : IvE V), iv ∈ l →
      iv.endp ≤ l.foldl (fun x j => max x j.endp) a := by
  intro l
  induction l with
  | nil => intro a iv h; simp at h
  | cons j rest ih =>
    intro a iv h
    rw [List.foldl_cons]
    rcases List.mem_cons.1 h with rfl | h
    · exact le_trans (le_max_right a iv.endp) (foldl_max_init_le rest (max a iv.endp))
    · exact ih (max a j.endp) iv h

theorem treeBegin_le {V : Type} (l : List (IvE V)) (iv : IvE V) (h : iv ∈ l) :
    treeBegin l ≤ iv.begin := by
  cases l with
  | nil => simp at h
  | cons j rest =>
    show rest.foldl (fun a x => min a x.begin) j.begin ≤ iv.begin
    rcases List.mem_cons.1 h with rfl | h
    · exact foldl_min_le_init rest iv.begin
    · exact foldl_min_le_mem rest j.begin iv h

theorem le_treeEnd {V : Type} (l : List (IvE V)) (iv : IvE V) (h : iv ∈ l) :
    iv.endp ≤ treeEnd l := by
  cases l with
  | nil => simp at h
  | cons j rest =>
    show iv.endp ≤ rest.foldl (fun a x => max a x.endp) j.endp
    rcases List.mem_cons.1 h with rfl | h
    · exact foldl_max_init_le rest iv.endp
    · exact foldl_max_mem_le rest j.endp iv h

theorem treeBegin_lt_treeEnd {V : Type} (l : List (IvE V)) (hne : l ≠ [])
    (hvalid : ∀ iv ∈ l, iv.begin < iv.endp) :
    treeBegin l < treeEnd l := by
  cases l with
  | nil => exact absurd rfl hne
  | cons j rest =>
    have h1 : treeBegin (j :: rest) ≤ j.begin :=
      treeBegin_le (j :: rest) j (List.mem_cons_self j rest)
    have h2 : j.endp ≤ treeEnd (j :: rest) :=
      le_treeEnd (j :: rest) j (List.mem_cons_self j rest)
    have h3 : j.begin < j.endp := hvalid j (List.mem_cons_self j rest)
    linarith

theorem snapLo_lt_snapHi (bg w : ℚ) (k i : ℕ) (hw : 0 < w) :
    snapLo bg w i < snapHi bg w k i := by
  simp only [snapLo, snapHi]
  have hite : (0 : ℚ) ≤ (if i = k - 1 then (1 : ℚ) else 0) := by
    split <;> norm_num
  have hring : w * ((i : ℚ) + 1) = w * (i : ℚ) + w := by ring
  linarith

theorem snapHi_eq_snapLo_succ (bg w : ℚ) (k i : ℕ) (h : i + 1 < k) :
    snapHi bg w k i = snapLo bg w (i + 1) := by
  simp only [snapLo, snapHi]
  rw [if_neg (by omega)]
  push_cast
  ring

theorem snapWindows_cover (bg en w : ℚ) (m : ℕ) (hm : 2 ≤ m) (hw : 0 < w)
    (hweq : bg + w * (m : ℚ) = en) (t : ℚ) (ht1 : bg ≤ t) (ht2 : t ≤ en) :
    ∃ i : ℕ, i < m ∧ snapLo bg w i ≤ t ∧ t < snapHi bg w m i := by
  by_cases hcase : bg + w * ((m - 1 : ℕ) : ℚ) ≤ t
  · refine ⟨m - 1, by omega, hcase, ?_⟩
    simp only [snapHi]
    have hcast : ((m - 1 : ℕ) : ℚ) + 1 = (m : ℚ) := by
      have : 1 ≤ m := by omega
      push_cast [Nat.cast_sub this]
      ring
    rw [if_pos trivial, hcast, hweq]
    linarith
  · push_neg at hcase
    have hx0 : (0 : ℚ) ≤ (t - bg) / w := div_nonneg (by linarith) hw.le
    set j : ℤ := ⌊(t - bg) / w⌋ with hj
    have hj0 : 0 ≤ j := Int.floor_nonneg.2 hx0
    refine ⟨j.toNat, ?_, ?_, ?_⟩
    · have hflo : ((j : ℚ)) ≤ (t - bg) / w := Int.floor_le _
      have hlt : (t - bg) / w < ((m - 1 : ℕ) : ℚ) := by
        rw [div_lt_iff₀ hw]
        linarith [mul_comm w ((m - 1 : ℕ) : ℚ)]
      have : ((j : ℚ)) < ((m - 1 : ℕ) : ℚ) := lt_of_le_of_lt hflo hlt
      have hjlt : j < ((m - 1 : ℕ) : ℤ) := by exact_mod_cast this
      omega
    · simp only [snapLo]
      have hflo : ((j : ℚ)) ≤ (t - bg) / w := Int.floor_le _
      have : (j : ℚ) * w ≤ t - bg := (le_div_iff₀ hw).1 hflo
      have hcast : ((j.toNat : ℕ) : ℚ) = (j : ℚ) := by
        exact_mod_cast congrArg (fun z : ℤ => (z : ℚ)) (Int.toNat_of_nonneg hj0)
      rw [hcast]
      linarith [mul_comm (j : ℚ) w]
    · simp only [snapHi]
      have hflo : (t - bg) / w < (j : ℚ) + 1 := Int.lt_floor_add_one _
      have : t - bg < ((j : ℚ) + 1) * w := (div_lt_iff₀ hw).1 hflo
      have hite : (0 : ℚ) ≤ (if j.toNat = m - 1 then (1 : ℚ) else 0) := by
        split <;> norm_num
      have hcast : ((j.toNat : ℕ) : ℚ) = (j : ℚ) := by
        exact_mod_cast congrArg (fun z : ℤ => (z : ℚ)) (Int.toNat_of_nonneg hj0)
      rw [hcast]
      linarith [mul_comm ((j : ℚ) + 1) w]

/-- Conclusion of the snapshot-split claim for an integer count `n`:
`to_snapshots` succeeds with exactly `n` views in order, view `i` being
the extraction over window `[begin + w*i, begin + w*(i+1))` (the last
window widened by one unit), the windows being contiguous and jointly
covering `[minBegin, maxEnd]`. -/
def SnapshotsSpec {V : Type} [DecidableEq V] (G : IntervalGraph V) (n : ℤ) : Prop :=
  ∃ L, G.to_snapshots (.int n) false false = .ok L ∧
    L.length = n.toNat ∧
    (∀ i : ℕ, i < n.toNat → L.get? i = some (toSubgraphView G
      (snapLo (treeBegin G.tree) ((treeEnd G.tree - treeBegin G.tree) / (n : ℚ)) i)
      (snapHi (treeBegin G.tree) ((treeEnd G.tree - treeBegin G.tree) / (n : ℚ))
        n.toNat i))) ∧
    snapLo (treeBegin G.tree) ((treeEnd G.tree - treeBegin G.tree) / (n : ℚ)) 0
      = treeBegin G.tree ∧
    (∀ i : ℕ, i + 1 < n.toNat →
      snapHi (treeBegin G.tree) ((treeEnd G.tree - treeBegin G.tree) / (n : ℚ)) n.toNat i
        = snapLo (treeBegin G.tree) ((treeEnd G.tree - treeBegin G.tree) / (n : ℚ)) (i + 1)) ∧
    (∀ t : ℚ, treeBegin G.tree ≤ t → t ≤ treeEnd G.tree →
      ∃ i : ℕ, i < n.toNat ∧
        snapLo (treeBegin G.tree) ((treeEnd G.tree - treeBegin G.tree) / (n : ℚ)) i ≤ t ∧
        t < snapHi (treeBegin G.tree) ((treeEnd G.tree - treeBegin G.tree) / (n : ℚ))
          n.toNat i)

/-- C6: `to_snapshots` rejects every count that is not an integer at
least 2 with the invalid-argument failure; and on every non-empty store
with valid intervals and every integer `n >= 2` it returns exactly `n`
views over the contiguous windows of width `(maxEnd - minBegin)/n`, the
last window's end raised by one unit so that `maxEnd` is covered. -/
theorem C6_to_snapshots_thm {V : Type} [DecidableEq V] (G : IntervalGraph V) (n : ℤ)
    (hn : 2 ≤ n) (hne : G.tree ≠ [])
    (hvalid : ∀ iv ∈ G.tree, iv.begin < iv.endp) :
    (∀ k : PyNum, k.valQ < 2 ∨ k.isInt = false →
      G.to_snapshots k false false = .error .invalidArgument) ∧
    SnapshotsSpec G n := by
  constructor
  · intro k hk
    unfold IntervalGraph.to_snapshots
    rw [if_pos hk]
  · have hm2 : 2 ≤ n.toNat := by omega
    have hmn : ((n.toNat : ℕ) : ℚ) = (n : ℚ) := by
      have h0 : (0 : ℤ) ≤ n := by omega
      exact_mod_cast congrArg (fun z : ℤ => (z : ℚ)) (Int.toNat_of_nonneg h0)
    have hlt : treeBegin G.tree < treeEnd G.tree :=
      treeBegin_lt_treeEnd G.tree hne hvalid
    have hnq : (0 : ℚ) < (n : ℚ) := by exact_mod_cast (by omega : (0 : ℤ) < n)
    have hw : 0 < (treeEnd G.tree - treeBegin G.tree) / (n : ℚ) :=
      div_pos (by linarith) hnq
    have hweq : treeBegin G.tree
        + (treeEnd G.tree - treeBegin G.tree) / (n : ℚ) * ((n.toNat : ℕ) : ℚ)
        = treeEnd G.tree := by
      rw [hmn, div_mul_cancel₀ _ (ne_of_gt hnq)]
      ring
    have hcond : ¬((PyNum.int n).valQ < 2 ∨ (PyNum.int n).isInt = false) := by
      push_neg
      constructor
      · simp only [PyNum.valQ, not_lt]
        exact_mod_cast hn
      · simp [PyNum.isInt]
    have hok : ∀ i ∈ List.range n.toNat,
        G.to_subgraph
          (snapLo (treeBegin G.tree) ((treeEnd G.tree - treeBegin G.tree) / (n : ℚ)) i)
          (snapHi (treeBegin G.tree) ((treeEnd G.tree - treeBegin G.tree) / (n : ℚ))
            n.toNat i) false false
        = .ok (toSubgraphView G
          (snapLo (treeBegin G.tree) ((treeEnd G.tree - treeBegin G.tree) / (n : ℚ)) i)
          (snapHi (treeBegin G.tree) ((treeEnd G.tree - treeBegin G.tree) / (n : ℚ))
            n.toNat i)) := by
      intro i _
      exact to_subgraph_ok G _ _ (snapLo_lt_snapHi _ _ _ _ hw)
    have hmap : G.to_snapshots (.int n) false false
        = .ok ((List.range n.toNat).map (fun i => toSubgraphView G
          (snapLo (treeBegin G.tree) ((treeEnd G.tree - treeBegin G.tree) / (n : ℚ)) i)
          (snapHi (treeBegin G.tree) ((treeEnd G.tree - treeBegin G.tree) / (n : ℚ))
            n.toNat i))) := by
      unfold IntervalGraph.to_snapshots
      rw [if_neg hcond]
      exact exMapM_ok_map _ _ _ hok
    refine ⟨_, hmap, ?_, ?_, ?_, ?_, ?_⟩
    · simp
    · intro i hi
      rw [List.get?_map, List.get?_range hi]
      rfl
    · simp [snapLo]
    · intro i hi
      exact snapHi_eq_snapLo_succ _ _ _ _ hi
    · intro t ht1 ht2
      exact snapWindows_cover (treeBegin G.tree) (treeEnd G.tree) _ n.toNat hm2 hw hweq
        t ht1 ht2

/-- C6 witness: the spec's own scenario, the store with edges
`(1,2,[0,5))` and `(2,3,[3,8))` split into 2 snapshots. -/
theorem C6_witness :
    ((2 : ℤ) ≤ 2 ∧
      ((((emptyIG ℕ).add_edge 1 2 0 5 []).2.add_edge 2 3 3 8 []).2.tree ≠ []) ∧
      (∀ iv ∈ (((emptyIG ℕ).add_edge 1 2 0 5 []).2.add_edge 2 3 3 8 []).2.tree,
        iv.begin < iv.endp)) ∧
    ((∀ k : PyNum, k.valQ < 2 ∨ k.isInt = false →
      (((emptyIG ℕ).add_edge 1 2 0 5 []).2.add_edge 2 3 3 8 []).2.to_snapshots
        k false false = .error .invalidArgument) ∧
    SnapshotsSpec (((emptyIG ℕ).add_edge 1 2 0 5 []).2.add_edge 2 3 3 8 []).2 2) :=
  ⟨⟨by decide, by decide, by decide⟩,
    C6_to_snapshots_thm (((emptyIG ℕ).add_edge 1 2 0 5 []).2.add_edge 2 3 3 8 []).2 2
      (by decide) (by decide) (by decide)⟩
